import Mathlib

/-!
Verification of the `solve` state-space search engine (bertbaron/pathfinding).

Shallow embedding of the newest revision of the package: `solve.go`
(generalSearch, idaStar, solve, continuations), `constraints.go`
(noConstraint, noLoopConstraint, cheapestPathConstraint and the
client-store variant cheapestPathConstraint2) and `strategies.go`
(priority queue via container/heap, lifo stack, ring buffer).
Float64 values are modelled by `F` (exact finite values plus
infinities and NaN) with Go comparison / `math.Max` / `math.Min`
semantics.  The unbounded
Go loops (`for {}` in generalSearch, `for true` in idaStar) are given a
fuel parameter and return `Option`, `none` meaning fuel exhausted.
-/

set_option maxRecDepth 10000

/-- Model of Go float64 values: NaN, the two infinities, and finite
values.  Every finite float64 value occurring in the repository's
scenarios is an integer, and float64 addition and comparison are exact
on integers of this size, so the finite payload is `ℤ`. -/
inductive F where
  | nan : F
  | negInf : F
  | inf : F
  | fin : ℤ → F
deriving DecidableEq, Repr

namespace F

/-- Go `<` on float64: NaN is incomparable. -/
def flt : F → F → Bool
  | nan, _ => false
  | _, nan => false
  | negInf, negInf => false
  | negInf, _ => true
  | fin _, negInf => false
  | fin a, fin b => decide (a < b)
  | fin _, inf => true
  | inf, _ => false

/-- Go `==` on float64 (IEEE equality: NaN equals nothing). -/
def feq : F → F → Bool
  | nan, _ => false
  | _, nan => false
  | inf, inf => true
  | negInf, negInf => true
  | fin a, fin b => decide (a = b)
  | _, _ => false

/-- Go `<=` on float64. -/
def fle (a b : F) : Bool := flt a b || feq a b

/-- Go float64 addition restricted to the cases that matter:
NaN propagates, Inf + (-Inf) = NaN. -/
def fadd : F → F → F
  | nan, _ => nan
  | _, nan => nan
  | inf, negInf => nan
  | negInf, inf => nan
  | inf, _ => inf
  | _, inf => inf
  | negInf, _ => negInf
  | _, negInf => negInf
  | fin a, fin b => fin (a + b)

/-- Go `math.Max`: +Inf beats NaN (the Inf case is checked first in the
Go source), NaN otherwise propagates, else the larger value. -/
def fmax (x y : F) : F :=
  if x = inf ∨ y = inf then inf
  else if x = nan ∨ y = nan then nan
  else if flt y x then x else y

/-- Go `math.Min`: -Inf beats NaN, NaN otherwise propagates, else the
smaller value. -/
def fmin (x y : F) : F :=
  if x = negInf ∨ y = negInf then negInf
  else if x = nan ∨ y = nan then nan
  else if flt x y then x else y

/-- Go `math.IsInf(x, 1)`. -/
def isPosInf : F → Bool
  | inf => true
  | _ => false

/-- Go `math.IsNaN(x)`. -/
def isNaN : F → Bool
  | nan => true
  | _ => false

end F

/-- Search-tree node (`type node struct` in solve.go): parent pointer
(nil for the root), state and value.  The nilable parent pointer is
modelled by two constructors. -/
inductive SNode (σ : Type) where
  | root (state : σ) (value : F)
  | child (parent : SNode σ) (state : σ) (value : F)
deriving DecidableEq, Repr

namespace SNode

def state : SNode σ → σ
  | root s _ => s
  | child _ s _ => s

def value : SNode σ → F
  | root _ v => v
  | child _ _ v => v

/-- The Go `node.parent` field (nil for the root). -/
def parentO : SNode σ → Option (SNode σ)
  | root _ _ => none
  | child p _ _ => some p

end SNode

/-- The client `State` interface of solve.go: Cost, IsGoal, Expand and
Heuristic, each receiving the opaque search context of type `κ`. -/
structure Problem (σ κ : Type) where
  cost : σ → κ → F
  isGoal : σ → κ → Bool
  expand : σ → κ → List σ
  heuristic : σ → κ → F

/-- The `iconstraint` interface of constraints.go.  The Go constraint is a
mutable object; here its state has type `γ` and the two hooks return the
pruning flag together with the updated state. -/
structure ConstraintImpl (σ γ : Type) where
  onVisit : SNode σ → γ → Bool × γ
  onExpand : SNode σ → γ → Bool × γ
  reset : γ → γ

/-- `noConstraint`: both hooks always return false (not pruned). -/
def noConstraint : ConstraintImpl σ Unit where
  onVisit := fun _ s => (false, s)
  onExpand := fun _ s => (false, s)
  reset := id

/-- The ancestor walk of `noLoopConstraint.onExpand`: walk up to `c`
ancestors, pruning when one has the same id; stop at the root (nil). -/
def loopCheck [DecidableEq ι] (id0 : ι) (ident : σ → ι) : Nat → Option (SNode σ) → Bool
  | 0, _ => false
  | _ + 1, none => false
  | c + 1, some anc =>
      if id0 = ident anc.state then true else loopCheck id0 ident c anc.parentO

/-- `noLoopConstraint(c)` of constraints.go, parameterized by the state
id function `ident` (Go: `node.state.Id()`). -/
def noLoopConstraint [DecidableEq ι] (c : Nat) (ident : σ → ι) : ConstraintImpl σ Unit where
  onVisit := fun _ s => (false, s)
  onExpand := fun n s => (loopCheck (ident n.state) ident c n.parentO, s)
  reset := id

/-- The `constraintNode` record of constraints.go: best value seen and a
visited flag. -/
structure CNodeS where
  value : F
  visited : Bool
deriving DecidableEq, Repr

/-- Lookup in the Go map backing `cheapestPathConstraint`, modelled as an
association list. -/
def mget [DecidableEq ι] : List (ι × CNodeS) → ι → Option CNodeS
  | [], _ => none
  | (k, v) :: rest, k0 => if k0 = k then some v else mget rest k0

/-- Store into the Go map: overwrite an existing key or append. -/
def mput [DecidableEq ι] : List (ι × CNodeS) → ι → CNodeS → List (ι × CNodeS)
  | [], k0, v0 => [(k0, v0)]
  | (k, v) :: rest, k0, v0 =>
      if k0 = k then (k, v0) :: rest else (k, v) :: mput rest k0 v0

/-- `cheapestPathConstraint` of constraints.go (map-backed), keyed by the
state id. -/
def cheapestPathConstraint [DecidableEq ι] (ident : σ → ι) :
    ConstraintImpl σ (List (ι × CNodeS)) where
  onExpand := fun n m =>
    match mget m (ident n.state) with
    | none => (false, mput m (ident n.state) ⟨n.value, false⟩)
    | some current =>
        if F.flt n.value current.value then
          (false, mput m (ident n.state) ⟨n.value, false⟩)
        else (true, m)
  onVisit := fun n m =>
    match mget m (ident n.state) with
    | none => (false, mput m (ident n.state) ⟨n.value, true⟩)
    | some current =>
        if F.flt n.value current.value ||
            (F.feq n.value current.value && !current.visited) then
          (false, mput m (ident n.state) ⟨n.value, true⟩)
        else (true, m)
  reset := fun _ => []

/-- `cheapestPathConstraint2` of constraints.go: the store is a
client-supplied `CPMap` with Get/Put/Clear, modelled abstractly by the
three functions over a store type `μ`. -/
def cheapestPathConstraint2 (get : μ → σ → Option CNodeS)
    (put : μ → σ → CNodeS → μ) (clear : μ → μ) : ConstraintImpl σ μ where
  onExpand := fun n m =>
    match get m n.state with
    | none => (false, put m n.state ⟨n.value, false⟩)
    | some current =>
        if F.flt n.value current.value then
          (false, put m n.state ⟨n.value, false⟩)
        else (true, m)
  onVisit := fun n m =>
    match get m n.state with
    | none => (false, put m n.state ⟨n.value, true⟩)
    | some current =>
        if F.flt n.value current.value ||
            (F.feq n.value current.value && !current.visited) then
          (false, put m n.state ⟨n.value, true⟩)
        else (true, m)
  reset := clear

/-! ## Frontier strategies (strategies.go) -/

/-- The `Less` of the priority queue in the current strategies.go:
ordering by ascending `value` only. -/
def pqLess (a b : SNode σ) : Bool := F.flt a.value b.value

/-- The float comparison helper `compare` of the older revision
(src/unnamed/part_000). -/
def fcompare (a b : F) : Int :=
  if F.flt a b then -1 else if F.flt b a then 1 else 0

/-- The `Less` of the older revision (src/unnamed/part_000): ascending
`value` with ties broken by descending `state.Cost()` (the old API's
Cost takes no context; it is passed in as `cost`). -/
def pqLessOld (cost : σ → F) (a b : SNode σ) : Bool :=
  let diff := fcompare a.value b.value
  let diff := if diff = 0 then fcompare (cost b.state) (cost a.state) else diff
  decide (diff < 0)

/-- Swap two positions of a list (Go slice `Swap`); out-of-range indices
leave the list unchanged. -/
def lswap (l : List α) (i j : Nat) : List α :=
  match l.get? i, l.get? j with
  | some a, some b => (l.set i b).set j a
  | _, _ => l

/-- `up` of Go's container/heap, with explicit fuel (the Go loop
strictly decreases `j`, so `l.length` fuel always suffices). -/
def heapUpF (less : α → α → Bool) : Nat → List α → Nat → List α
  | 0, l, _ => l
  | fuel + 1, l, j =>
      let i := (j - 1) / 2
      if i = j then l
      else
        match l.get? i, l.get? j with
        | some ai, some aj =>
            if less aj ai then heapUpF less fuel (lswap l i j) i else l
        | _, _ => l

/-- `down` of Go's container/heap, with explicit fuel. -/
def heapDownF (less : α → α → Bool) : Nat → List α → Nat → Nat → List α
  | 0, l, _, _ => l
  | fuel + 1, l, i, n =>
      let j1 := 2 * i + 1
      if n ≤ j1 then l
      else
        let j :=
          if j1 + 1 < n &&
              (match l.get? (j1 + 1), l.get? j1 with
               | some a, some b => less a b
               | _, _ => false) then j1 + 1
          else j1
        match l.get? j, l.get? i with
        | some aj, some ai =>
            if less aj ai then heapDownF less fuel (lswap l i j) j n else l
        | _, _ => l

/-- `heap.Push`: append, then sift up from the last position. -/
def heapPush (less : α → α → Bool) (l : List α) (x : α) : List α :=
  let l := l ++ [x]
  heapUpF less l.length l (l.length - 1)

/-- `heap.Pop` followed by the slice `Pop`: swap root with the last
element, sift down over the first `n` positions, remove and return the
last element. -/
def heapPop (less : α → α → Bool) (l : List α) : Option α × List α :=
  let n := l.length - 1
  let l := lswap l 0 n
  let l := heapDownF less l.length l 0 n
  (l.getLast?, l.dropLast)

/-- The ring buffer of strategies.go backing the breadth-first
strategy.  The Go slice of nilable node pointers becomes a list of
options. -/
structure RB (σ : Type) where
  buffer : List (Option (SNode σ))
  start : Nat
  stop : Nat
deriving DecidableEq, Repr

/-- `inc`: next index modulo the capacity, written as in the Go source
with a bit mask (requires the capacity to be a power of two). -/
def rbInc (b : RB σ) (i : Nat) : Nat := (i + 1) &&& (b.buffer.length - 1)

/-- `ringbuffer.Take`. -/
def rbTake (b : RB σ) : Option (SNode σ) × RB σ :=
  if b.start = b.stop then (none, b)
  else (b.buffer.getD b.start none, { b with start := rbInc b b.start })

/-- Go's `copy(dst[off:], src)`: overwrite `dst` from position `off`
with the elements of `src`, never extending `dst`. -/
def listCopyInto : List α → Nat → List α → List α
  | dst, _, [] => dst
  | [], _, _ :: _ => []
  | _ :: ds, 0, s :: ss => s :: listCopyInto ds 0 ss
  | d :: ds, o + 1, src => d :: listCopyInto ds o src

/-- `grow`: double the capacity, copying the live region to the front
(two copies when it wraps around). -/
def rbGrow (b : RB σ) : RB σ :=
  let oldsize := b.buffer.length
  let size := oldsize * 2
  let adjusted : List (Option (SNode σ)) := List.replicate size none
  let adjusted :=
    if b.start < b.stop then
      listCopyInto adjusted 0 ((b.buffer.drop b.start).take (b.stop - b.start))
    else
      let first := b.buffer.drop b.start
      let adjusted := listCopyInto adjusted 0 first
      listCopyInto adjusted first.length (b.buffer.take b.stop)
  { buffer := adjusted, start := 0, stop := oldsize }

/-- `ringbuffer.Add`: write at `stop`, advance it, grow when full. -/
def rbAdd (b : RB σ) (n : SNode σ) : RB σ :=
  let b := { b with buffer := b.buffer.set b.stop (some n) }
  let b := { b with stop := rbInc b b.stop }
  if b.start = b.stop then rbGrow b else b

/-- `breadthFirst()`: a fresh 64-slot ring buffer. -/
def rbInit : RB σ := { buffer := List.replicate 64 none, start := 0, stop := 0 }

/-- The `strategy` interface: the three frontier implementations that
`solve` can pick, as one sum type dispatched on by Take/Add. -/
inductive Queue (σ : Type) where
  | pq (l : List (SNode σ))
  | stack (l : List (SNode σ))
  | fifo (b : RB σ)

/-- `Take` of the selected strategy.  The priority queue (`aStar()`)
pops the heap minimum; the stack (`depthFirst()`) pops the last
element; the ring buffer (`breadthFirst()`) is FIFO. -/
def queueTake : Queue σ → Option (SNode σ) × Queue σ
  | .pq l =>
      if l.length = 0 then (none, .pq l)
      else
        let (x, l) := heapPop pqLess l
        (x, .pq l)
  | .stack l => (l.getLast?, .stack l.dropLast)
  | .fifo b =>
      let (x, b) := rbTake b
      (x, .fifo b)

/-- `Add` of the selected strategy. -/
def queueAdd : Queue σ → SNode σ → Queue σ
  | .pq l, n => .pq (heapPush pqLess l n)
  | .stack l, n => .stack (l ++ [n])
  | .fifo b, n => .fifo (rbAdd b n)

/-! ## The general search loop and the IDA* driver (solve.go) -/

/-- Everything the Go closure created in `generalSearch` captures:
the queue, the counters, the constraint object (code and state),
`ubound`, `limit`, the running `contour` and the context. -/
structure GenCont (σ γ κ : Type) where
  ci : ConstraintImpl σ γ
  queue : Queue σ
  visited : Nat
  expanded : Nat
  cstate : γ
  ubound : F
  limit : F
  contour : F
  ctx : κ

/-- A stored continuation (`result.next` in solve.go): either a
resumption of the general loop, or the `idaStar` wrapper that first
drains the inner general-loop continuation and then advances the bound.
The inner continuation of the wrapper is always a general-loop one in
the Go code, and is typed accordingly. -/
inductive SCont (σ γ κ : Type) where
  | gen (g : GenCont σ γ κ)
  | ida (rootState : σ) (ci : ConstraintImpl σ γ) (contour ubound limit : F) (ctx : κ)
      (inner : Option (GenCont σ γ κ)) (cstate : γ)

/-- The internal `result` struct of solve.go, extended with the final
state of the (mutable in Go) constraint object. -/
structure SResult (σ γ κ : Type) where
  node : Option (SNode σ)
  contour : F
  visited : Nat
  expanded : Nat
  next : Option (SCont σ γ κ)
  cst : γ

/-- The child-expansion body of `generalSearch` (solve.go lines 88-99)
for a single child: build the child node with
`value = max(parent.value, Cost+Heuristic)`, ask `onExpand`, then
either drop it, fold it into the contour, or enqueue it. -/
def expandOne (p : Problem σ κ) (ci : ConstraintImpl σ γ) (n : SNode σ) (limit : F) (ctx : κ)
    (acc : Queue σ × Nat × F × γ) (child : σ) : Queue σ × Nat × F × γ :=
  match acc with
  | (queue, expanded, contour, cstate) =>
      let childNode : SNode σ :=
        .child n child (F.fmax n.value (F.fadd (p.cost child ctx) (p.heuristic child ctx)))
      match ci.onExpand childNode cstate with
      | (true, cstate) => (queue, expanded, contour, cstate)
      | (false, cstate) =>
          if F.flt limit childNode.value then
            (queue, expanded, F.fmin contour childNode.value, cstate)
          else
            (queueAdd queue childNode, expanded + 1, contour, cstate)

/-- The `for _, child := range n.state.Expand(context)` loop of
`generalSearch`. -/
def expandChildren (p : Problem σ κ) (ci : ConstraintImpl σ γ) (n : SNode σ)
    (children : List σ) (queue : Queue σ) (expanded : Nat) (contour : F) (cstate : γ)
    (limit : F) (ctx : κ) : Queue σ × Nat × F × γ :=
  children.foldl (expandOne p ci n limit ctx) (queue, expanded, contour, cstate)

/-- `generalSearch` of solve.go with fuel for the unbounded loop;
`none` means the fuel ran out. -/
def generalSearch (p : Problem σ κ) (ci : ConstraintImpl σ γ) :
    Nat → Queue σ → Nat → Nat → γ → F → F → F → κ → Option (SResult σ γ κ)
  | 0, _, _, _, _, _, _, _, _ => none
  | fuel + 1, queue, visited, expanded, cstate, ubound, limit, contour, ctx =>
      match queueTake queue with
      | (none, _) => some ⟨none, contour, visited, expanded, none, cstate⟩
      | (some n, q) =>
          let visited := visited + 1
          match ci.onVisit n cstate with
          | (true, cstate) =>
              generalSearch p ci fuel q visited expanded cstate ubound limit contour ctx
          | (false, cstate) =>
              if p.isGoal n.state ctx && F.flt ubound n.value then
                some ⟨some n, contour, visited, expanded,
                  some (.gen ⟨ci, q, visited, expanded, cstate, ubound, limit, contour, ctx⟩),
                  cstate⟩
              else
                match expandChildren p ci n (p.expand n.state ctx) q expanded contour cstate limit ctx with
                | (q, expanded, contour, cstate) =>
                    generalSearch p ci fuel q visited expanded cstate ubound limit contour ctx

/-- Invoke a stored general-loop continuation (the Go closure body). -/
def runGenCont (p : Problem σ κ) (fuel : Nat) (g : GenCont σ γ κ) : Option (SResult σ γ κ) :=
  generalSearch p g.ci fuel g.queue g.visited g.expanded g.cstate g.ubound g.limit g.contour g.ctx

/-- `startGeneralSearch`: fresh counters, `ubound = -1.0`,
`contour = +Inf`. -/
def startGeneralSearch (p : Problem σ κ) (ci : ConstraintImpl σ γ) (fuel : Nat)
    (queue : Queue σ) (limit : F) (ctx : κ) (cst : γ) : Option (SResult σ γ κ) :=
  generalSearch p ci fuel queue 0 0 cst (F.fin (-1)) limit F.inf ctx

/-- The root node as seeded by `solve` and by each IDA* iteration:
no parent and `value = Cost() + Heuristic()` of the root state. -/
def seedRoot (p : Problem σ κ) (s : σ) (ctx : κ) : SNode σ :=
  .root s (F.fadd (p.cost s ctx) (p.heuristic s ctx))

/-- The `for true` loop of `idaStar`.  Loop state: the accumulated
counters, the current bound `contour`, the previous bound `ubound`, the
pending continuation and the constraint state. -/
def idaLoop (p : Problem σ κ) (ci : ConstraintImpl σ γ) (rootState : σ) (limit : F) (ctx : κ) :
    Nat → Nat → Nat → F → F → Option (GenCont σ γ κ) → γ → Option (SResult σ γ κ)
  | 0, _, _, _, _, _, _ => none
  | fuel + 1, visited, expanded, contour, ubound, nextfn, cst =>
      let step :=
        match nextfn with
        | none =>
            let q := queueAdd (Queue.stack []) (seedRoot p rootState ctx)
            let cst := ci.reset cst
            generalSearch p ci fuel q visited expanded cst ubound contour F.inf ctx
        | some g => runGenCont p fuel g
      match step with
      | none => none
      | some lastResult =>
          match lastResult.node with
          | some _ =>
              let inner : Option (GenCont σ γ κ) :=
                match lastResult.next with
                | some (.gen g) => some g
                | _ => none
              some { lastResult with
                next := some (.ida rootState ci contour ubound limit ctx inner lastResult.cst) }
          | none =>
              let lastResult := { lastResult with next := none }
              if F.flt limit lastResult.contour || lastResult.contour.isPosInf ||
                  lastResult.contour.isNaN then
                some lastResult
              else
                idaLoop p ci rootState limit ctx fuel lastResult.visited lastResult.expanded
                  lastResult.contour contour none lastResult.cst

/-- `idaStar` of solve.go: fresh local counters, then the loop. -/
def idaStar (p : Problem σ κ) (ci : ConstraintImpl σ γ) (fuel : Nat) (rootState : σ)
    (contour ubound limit : F) (ctx : κ) (nextfn : Option (GenCont σ γ κ)) (cst : γ) :
    Option (SResult σ γ κ) :=
  idaLoop p ci rootState limit ctx fuel 0 0 contour ubound nextfn cst

/-- `startIdaStar`: `contour = 0.0`, `ubound = -1.0`. -/
def startIdaStar (p : Problem σ κ) (ci : ConstraintImpl σ γ) (fuel : Nat) (rootState : σ)
    (limit : F) (ctx : κ) (cst : γ) : Option (SResult σ γ κ) :=
  idaStar p ci fuel rootState (F.fin 0) (F.fin (-1)) limit ctx none cst

/-- Invoke a stored continuation of either kind. -/
def resumeCont (p : Problem σ κ) (fuel : Nat) : SCont σ γ κ → Option (SResult σ γ κ)
  | .gen g => runGenCont p fuel g
  | .ida rootState ci contour ubound limit ctx inner cst =>
      idaStar p ci fuel rootState contour ubound limit ctx inner cst

/-- `toSlice` on a non-nil node: the root-to-node list of states. -/
def pathOf : SNode σ → List σ
  | .root s _ => [s]
  | .child p s _ => pathOf p ++ [s]

/-- `toSlice` of solve.go. -/
def toSlice : Option (SNode σ) → List σ
  | none => []
  | some n => pathOf n

/-- The public `Result` struct. -/
structure GoResult (σ : Type) where
  solution : List σ
  visited : Nat
  expanded : Nat
deriving DecidableEq, Repr

/-- `toResult` of solve.go. -/
def toResult (r : SResult σ γ κ) : GoResult σ := ⟨toSlice r.node, r.visited, r.expanded⟩

/-- The `Algorithm` enum of strategies.go. -/
inductive Algorithm where
  | Astar | DepthFirst | BreadthFirst | IDAstar
deriving DecidableEq, Repr

/-- The `solver` struct of solve.go.  The Go `constraint` field holds a
mutable constraint object: here a `ConstraintImpl` (its code) paired
with its current state. -/
structure GoSolver (σ κ γ : Type) where
  rootState : σ
  algorithm : Algorithm
  constraint : ConstraintImpl σ γ × γ
  limit : F
  context : κ
  started : Bool
  result : Option (SResult σ γ κ)

/-- `solve(ss)` of solve.go: resume the stored continuation when the
search was already started (or report exhaustion), otherwise dispatch
on the algorithm.  Returns the `Result` and the updated solver. -/
def goSolve (p : Problem σ κ) (fuel : Nat) (ss : GoSolver σ κ γ) :
    Option (GoResult σ × GoSolver σ κ γ) :=
  if ss.started then
    match ss.result with
    | none => none
    | some r =>
        match r.next with
        | none => some (⟨[], r.visited, r.expanded⟩, ss)
        | some cont =>
            match resumeCont p fuel cont with
            | none => none
            | some nr => some (toResult nr, { ss with result := some nr })
  else
    let ss := { ss with started := true }
    let ctx := ss.context
    let ci := ss.constraint.1
    let cst := ss.constraint.2
    if ss.algorithm = .IDAstar then
      match startIdaStar p ci fuel ss.rootState ss.limit ctx cst with
      | none => none
      | some nr => some (toResult nr, { ss with result := some nr })
    else
      let q : Queue σ :=
        match ss.algorithm with
        | .Astar => .pq []
        | .DepthFirst => .stack []
        | .BreadthFirst => .fifo rbInit
        | .IDAstar => .stack []
      let q := queueAdd q (seedRoot p ss.rootState ctx)
      let cst := ci.reset cst
      match startGeneralSearch p ci fuel q ss.limit ctx cst with
      | none => none
      | some nr => some (toResult nr, { ss with result := some nr })

/-- The `Algorithm` configuration setter of the solver facade. -/
def GoSolver.withAlgorithm (s : GoSolver σ κ γ) (a : Algorithm) : GoSolver σ κ γ :=
  { s with algorithm := a }

/-- The `Constraint` configuration setter. -/
def GoSolver.withConstraint (s : GoSolver σ κ γ) (c : ConstraintImpl σ γ × γ) : GoSolver σ κ γ :=
  { s with constraint := c }

/-- The `Limit` configuration setter. -/
def GoSolver.withLimit (s : GoSolver σ κ γ) (l : F) : GoSolver σ κ γ :=
  { s with limit := l }

/-- The `Context` configuration setter. -/
def GoSolver.withContext (s : GoSolver σ κ γ) (c : κ) : GoSolver σ κ γ :=
  { s with context := c }

/-! ## The test-graph problem of solve_test.go -/

/-- The graph state of solve_test.go: node label and accumulated cost. -/
structure GState where
  node : String
  cost : F
deriving DecidableEq, Repr

/-- The edge list of the simple test graph `a→b(1), a→c(1), b→D(1), b→c(1)`. -/
def testGraph : String → List (String × F)
  | "a" => [("b", F.fin 1), ("c", F.fin 1)]
  | "b" => [("D", F.fin 1), ("c", F.fin 1)]
  | _ => []

/-- The graph-backed `State` implementation of solve_test.go over a
given edge list; goal = label whose first character is uppercase,
heuristic 0, id = label. -/
def graphProblem (g : String → List (String × F)) : Problem GState Unit where
  cost := fun s _ => s.cost
  isGoal := fun s _ => s.node.front.isUpper
  expand := fun s _ => (g s.node).map (fun e => ⟨e.1, F.fadd s.cost e.2⟩)
  heuristic := fun _ _ => F.fin 0

/-- A solver as produced by `NewSolver` followed by the configuration
calls used in the tests. -/
def mkSolver (alg : Algorithm) (c : ConstraintImpl GState γ × γ) (lim : F) :
    GoSolver GState Unit γ :=
  { rootState := ⟨"a", F.fin 0⟩, algorithm := alg, constraint := c, limit := lim,
    context := (), started := false, result := none }

def gident (s : GState) : String := s.node



/-! ## Claim theorems -/

/-- Extract the solution labels and the goal-state cost of the first
`Solve()` call for one algorithm/constraint combination on the simple
test graph. -/
def firstRun (alg : Algorithm) (c : ConstraintImpl GState γ × γ) (lim : F) :
    Option (List String × Option F) :=
  (goSolve (graphProblem testGraph) 100 (mkSolver alg c lim)).map
    (fun x => (x.1.solution.map GState.node, (x.1.solution.getLast?).map GState.cost))

/-- Claim C1: on the graph `a→b(1), a→c(1), b→D(1), b→c(1)` with root
`a`, goal = uppercase label and zero heuristic, each of A*, IDA*,
Breadth-First and Depth-First with limit 2, under each of the four
constraints (None, BoundedLoop(2), BoundedLoop(MaxInt32), CheapestPath),
returns the solution path `[a, b, D]` whose goal-state cost is 2. -/
theorem c1_simple_problem_all_algorithms :
    (firstRun .Astar (noConstraint, ()) F.inf = some (["a", "b", "D"], some (F.fin 2))) ∧
    (firstRun .Astar (noLoopConstraint 2 gident, ()) F.inf = some (["a", "b", "D"], some (F.fin 2))) ∧
    (firstRun .Astar (noLoopConstraint 2147483647 gident, ()) F.inf = some (["a", "b", "D"], some (F.fin 2))) ∧
    (firstRun .Astar (cheapestPathConstraint gident, []) F.inf = some (["a", "b", "D"], some (F.fin 2))) ∧
    (firstRun .IDAstar (noConstraint, ()) F.inf = some (["a", "b", "D"], some (F.fin 2))) ∧
    (firstRun .IDAstar (noLoopConstraint 2 gident, ()) F.inf = some (["a", "b", "D"], some (F.fin 2))) ∧
    (firstRun .IDAstar (noLoopConstraint 2147483647 gident, ()) F.inf = some (["a", "b", "D"], some (F.fin 2))) ∧
    (firstRun .IDAstar (cheapestPathConstraint gident, []) F.inf = some (["a", "b", "D"], some (F.fin 2))) ∧
    (firstRun .BreadthFirst (noConstraint, ()) F.inf = some (["a", "b", "D"], some (F.fin 2))) ∧
    (firstRun .BreadthFirst (noLoopConstraint 2 gident, ()) F.inf = some (["a", "b", "D"], some (F.fin 2))) ∧
    (firstRun .BreadthFirst (noLoopConstraint 2147483647 gident, ()) F.inf = some (["a", "b", "D"], some (F.fin 2))) ∧
    (firstRun .BreadthFirst (cheapestPathConstraint gident, []) F.inf = some (["a", "b", "D"], some (F.fin 2))) ∧
    (firstRun .DepthFirst (noConstraint, ()) (F.fin 2) = some (["a", "b", "D"], some (F.fin 2))) ∧
    (firstRun .DepthFirst (noLoopConstraint 2 gident, ()) (F.fin 2) = some (["a", "b", "D"], some (F.fin 2))) ∧
    (firstRun .DepthFirst (noLoopConstraint 2147483647 gident, ()) (F.fin 2) = some (["a", "b", "D"], some (F.fin 2))) ∧
    (firstRun .DepthFirst (cheapestPathConstraint gident, []) (F.fin 2) = some (["a", "b", "D"], some (F.fin 2))) := by
  refine ⟨?_, ?_, ?_, ?_, ?_, ?_, ?_, ?_, ?_, ?_, ?_, ?_, ?_, ?_, ?_, ?_⟩ <;> rfl

/-- IEEE `a <= b` implies `b < a` is false (used to line the claim's
`value <= limit` case up with the code's `!(value > limit)` branch). -/
theorem F.fle_then_not_lt {a b : F} (h : F.fle a b = true) : F.flt b a = false := by
  cases a <;> cases b <;> simp_all [F.fle, F.flt, F.feq] <;> omega

/-- Claim C2: in the expansion step of the general search loop the child
node's value is `max(parent value, child cost + child heuristic)`; when
`onExpand` does not prune and the value is strictly greater than the
limit the child is not enqueued and the contour becomes
`min(contour, value)`; when the value is at most the limit the child is
enqueued and `expanded` is incremented by exactly one; when `onExpand`
prunes, neither happens.  `expandChildren` is the fold of this step over
the children returned by `Expand`. -/
theorem c2_expand_step (p : Problem σ κ) (ci : ConstraintImpl σ γ) (n : SNode σ)
    (child : σ) (queue : Queue σ) (expanded : Nat) (contour : F) (cstate : γ)
    (limit : F) (ctx : κ) (children : List σ) :
    (SNode.child n child (F.fmax n.value (F.fadd (p.cost child ctx) (p.heuristic child ctx)))).value
        = F.fmax n.value (F.fadd (p.cost child ctx) (p.heuristic child ctx)) ∧
    (expandChildren p ci n children queue expanded contour cstate limit ctx
        = children.foldl (expandOne p ci n limit ctx) (queue, expanded, contour, cstate)) ∧
    (∀ childNode, childNode
        = SNode.child n child (F.fmax n.value (F.fadd (p.cost child ctx) (p.heuristic child ctx))) →
      ((ci.onExpand childNode cstate).1 = true →
        expandOne p ci n limit ctx (queue, expanded, contour, cstate) child
          = (queue, expanded, contour, (ci.onExpand childNode cstate).2)) ∧
      ((ci.onExpand childNode cstate).1 = false → F.flt limit childNode.value = true →
        expandOne p ci n limit ctx (queue, expanded, contour, cstate) child
          = (queue, expanded, F.fmin contour childNode.value, (ci.onExpand childNode cstate).2)) ∧
      ((ci.onExpand childNode cstate).1 = false → F.fle childNode.value limit = true →
        expandOne p ci n limit ctx (queue, expanded, contour, cstate) child
          = (queueAdd queue childNode, expanded + 1, contour, (ci.onExpand childNode cstate).2))) := by
  refine ⟨rfl, rfl, ?_⟩
  rintro childNode rfl
  refine ⟨?_, ?_, ?_⟩ <;> intro hexp
  · simp only [expandOne]
    rw [show ci.onExpand _ cstate = (true, (ci.onExpand _ cstate).2) from
      Prod.ext hexp rfl]
  · intro hlt
    simp only [expandOne]
    rw [show ci.onExpand _ cstate = (false, (ci.onExpand _ cstate).2) from
      Prod.ext hexp rfl]
    simp [hlt]
  · intro hle
    simp only [expandOne]
    rw [show ci.onExpand _ cstate = (false, (ci.onExpand _ cstate).2) from
      Prod.ext hexp rfl]
    simp [F.fle_then_not_lt hle]

/-- Witness for C2: a concrete instance of each of the three cases on the
test graph (the prune case with the bounded-loop constraint pruning a
return to the parent, the over-limit case, and the enqueue case). -/
theorem c2_expand_step_witness :
    (expandOne (graphProblem testGraph) noConstraint
        (SNode.root ⟨"a", F.fin 0⟩ (F.fin 0)) (F.fin 0) ()
        ((Queue.stack []), 0, F.inf, ()) ⟨"b", F.fin 1⟩
      = (Queue.stack [], 0, F.fmin F.inf (F.fin 1), ())) ∧
    (expandOne (graphProblem testGraph) noConstraint
        (SNode.root ⟨"a", F.fin 0⟩ (F.fin 0)) (F.fin 2) ()
        ((Queue.stack []), 0, F.inf, ()) ⟨"b", F.fin 1⟩
      = (Queue.stack [SNode.child (SNode.root ⟨"a", F.fin 0⟩ (F.fin 0)) ⟨"b", F.fin 1⟩ (F.fin 1)],
          1, F.inf, ())) ∧
    (expandOne (graphProblem testGraph)
        (noLoopConstraint 2 gident)
        (SNode.child (SNode.root ⟨"a", F.fin 0⟩ (F.fin 0)) ⟨"b", F.fin 1⟩ (F.fin 1)) (F.fin 9) ()
        ((Queue.stack []), 0, F.inf, ()) ⟨"a", F.fin 2⟩
      = (Queue.stack [], 0, F.inf, ())) := by
  refine ⟨?_, ?_, ?_⟩
  · have h := (c2_expand_step (graphProblem testGraph) noConstraint
      (SNode.root ⟨"a", F.fin 0⟩ (F.fin 0)) ⟨"b", F.fin 1⟩ (Queue.stack []) 0 F.inf ()
      (F.fin 0) () []).2.2 _ rfl
    exact h.2.1 (by decide) (by decide)
  · have h := (c2_expand_step (graphProblem testGraph) noConstraint
      (SNode.root ⟨"a", F.fin 0⟩ (F.fin 0)) ⟨"b", F.fin 1⟩ (Queue.stack []) 0 F.inf ()
      (F.fin 2) () []).2.2 _ rfl
    exact h.2.2 (by decide) (by decide)
  · have h := (c2_expand_step (graphProblem testGraph) (noLoopConstraint 2 gident)
      (SNode.child (SNode.root ⟨"a", F.fin 0⟩ (F.fin 0)) ⟨"b", F.fin 1⟩ (F.fin 1))
      ⟨"a", F.fin 2⟩ (Queue.stack []) 0 F.inf () (F.fin 9) () []).2.2 _ rfl
    exact h.1 (by decide)

/-- Claim C3: for both cheapest-path constraint variants, `onExpand`
does not prune iff the store has no entry for the state's identity or
the node's value is strictly lower than the stored one (ties lose), and
then stores `(value, visited := false)`; `onVisit` does not prune iff
there is no entry, the value is strictly lower, or it is equal and the
entry is not yet marked visited, and then stores
`(value, visited := true)`. -/
theorem c3_cheapest_path_hooks [DecidableEq ι] (ident : σ → ι) (n : SNode σ)
    (m : List (ι × CNodeS)) (get : μ → σ → Option CNodeS) (put : μ → σ → CNodeS → μ)
    (clear : μ → μ) (ms : μ) :
    (((cheapestPathConstraint ident).onExpand n m).1 = false ↔
      mget m (ident n.state) = none ∨
        ∃ cur, mget m (ident n.state) = some cur ∧ F.flt n.value cur.value = true) ∧
    (((cheapestPathConstraint ident).onExpand n m).1 = false →
      ((cheapestPathConstraint ident).onExpand n m).2
        = mput m (ident n.state) ⟨n.value, false⟩) ∧
    (((cheapestPathConstraint ident).onVisit n m).1 = false ↔
      mget m (ident n.state) = none ∨
        ∃ cur, mget m (ident n.state) = some cur ∧
          (F.flt n.value cur.value = true ∨
            (F.feq n.value cur.value = true ∧ cur.visited = false))) ∧
    (((cheapestPathConstraint ident).onVisit n m).1 = false →
      ((cheapestPathConstraint ident).onVisit n m).2
        = mput m (ident n.state) ⟨n.value, true⟩) ∧
    (((cheapestPathConstraint2 get put clear).onExpand n ms).1 = false ↔
      get ms n.state = none ∨
        ∃ cur, get ms n.state = some cur ∧ F.flt n.value cur.value = true) ∧
    (((cheapestPathConstraint2 get put clear).onExpand n ms).1 = false →
      ((cheapestPathConstraint2 get put clear).onExpand n ms).2
        = put ms n.state ⟨n.value, false⟩) ∧
    (((cheapestPathConstraint2 get put clear).onVisit n ms).1 = false ↔
      get ms n.state = none ∨
        ∃ cur, get ms n.state = some cur ∧
          (F.flt n.value cur.value = true ∨
            (F.feq n.value cur.value = true ∧ cur.visited = false))) ∧
    (((cheapestPathConstraint2 get put clear).onVisit n ms).1 = false →
      ((cheapestPathConstraint2 get put clear).onVisit n ms).2
        = put ms n.state ⟨n.value, true⟩) := by
  refine ⟨?_, ?_, ?_, ?_, ?_, ?_, ?_, ?_⟩ <;>
    simp only [cheapestPathConstraint, cheapestPathConstraint2]
  · cases hget : mget m (ident n.state) with
    | none => simp [hget]
    | some cur => by_cases hlt : F.flt n.value cur.value <;> simp [hget, hlt]
  · cases hget : mget m (ident n.state) with
    | none => simp [hget]
    | some cur => by_cases hlt : F.flt n.value cur.value <;> simp [hget, hlt]
  · cases hget : mget m (ident n.state) with
    | none => simp [hget]
    | some cur =>
        by_cases hlt : F.flt n.value cur.value <;>
          by_cases heq : F.feq n.value cur.value <;>
          cases hv : cur.visited <;> simp [hget, hlt, heq, hv]
  · cases hget : mget m (ident n.state) with
    | none => simp [hget]
    | some cur =>
        by_cases hlt : F.flt n.value cur.value <;>
          by_cases heq : F.feq n.value cur.value <;>
          cases hv : cur.visited <;> simp [hget, hlt, heq, hv]
  · cases hget : get ms n.state with
    | none => simp [hget]
    | some cur => by_cases hlt : F.flt n.value cur.value <;> simp [hget, hlt]
  · cases hget : get ms n.state with
    | none => simp [hget]
    | some cur => by_cases hlt : F.flt n.value cur.value <;> simp [hget, hlt]
  · cases hget : get ms n.state with
    | none => simp [hget]
    | some cur =>
        by_cases hlt : F.flt n.value cur.value <;>
          by_cases heq : F.feq n.value cur.value <;>
          cases hv : cur.visited <;> simp [hget, hlt, heq, hv]
  · cases hget : get ms n.state with
    | none => simp [hget]
    | some cur =>
        by_cases hlt : F.flt n.value cur.value <;>
          by_cases heq : F.feq n.value cur.value <;>
          cases hv : cur.visited <;> simp [hget, hlt, heq, hv]

/-- Witness for C3: the hooks on a concrete store over the test-graph
states; an equal value loses at `onExpand` and wins at `onVisit` only
while the stored entry is unvisited. -/
theorem c3_cheapest_path_hooks_witness :
    (((cheapestPathConstraint gident).onExpand
        (SNode.root ⟨"b", F.fin 1⟩ (F.fin 1)) [("b", ⟨F.fin 1, false⟩)]).1 = true) ∧
    (((cheapestPathConstraint gident).onVisit
        (SNode.root ⟨"b", F.fin 1⟩ (F.fin 1)) [("b", ⟨F.fin 1, false⟩)]).1 = false) ∧
    (((cheapestPathConstraint gident).onVisit
        (SNode.root ⟨"b", F.fin 1⟩ (F.fin 1)) [("b", ⟨F.fin 1, false⟩)]).2
      = [("b", ⟨F.fin 1, true⟩)]) ∧
    (((cheapestPathConstraint gident).onVisit
        (SNode.root ⟨"b", F.fin 1⟩ (F.fin 1)) [("b", ⟨F.fin 1, true⟩)]).1 = true) := by
  have h := c3_cheapest_path_hooks (ι := String) (σ := GState) (μ := Unit) gident
    (SNode.root ⟨"b", F.fin 1⟩ (F.fin 1)) [("b", ⟨F.fin 1, false⟩)]
    (fun _ _ => none) (fun m _ _ => m) id ()
  refine ⟨?_, ?_, ?_, ?_⟩
  · by_contra hc
    have := h.1.mp (by revert hc; decide)
    revert this; decide
  · exact h.2.2.1.mpr (by decide)
  · exact h.2.2.2.1 (h.2.2.1.mpr (by decide))
  · have h2 := c3_cheapest_path_hooks (ι := String) (σ := GState) (μ := Unit) gident
      (SNode.root ⟨"b", F.fin 1⟩ (F.fin 1)) [("b", ⟨F.fin 1, true⟩)]
      (fun _ _ => none) (fun m _ _ => m) id ()
    by_contra hc
    have := h2.2.2.1.mp (by revert hc; decide)
    revert this; decide

/-- The graph of `TestIDAStarWithInfinitContour`: a single edge `a→b`
with cost `+Inf`. -/
def infGraph : String → List (String × F)
  | "a" => [("b", F.inf)]
  | _ => []

/-- Claim C5: on a root whose only successor has cost `+Inf` (zero
heuristic, `b` not a goal), the IDA* driver terminates and returns a
no-solution result: the returned result has an empty solution path, the
recorded contour is `+Inf` (so the driver's termination check fired
rather than re-trying the bound), and no continuation is stored.  The
driver returns within finite fuel, i.e. it does not loop forever. -/
theorem c5_idastar_infinite_edge_terminates :
    (goSolve (graphProblem infGraph) 50 (mkSolver .IDAstar (noConstraint, ()) F.inf)).map
        (fun x => (x.1.solution, x.2.result.map (fun r => (r.contour, r.next.isNone))))
      = some ([], some (F.inf, true)) := by
  rfl

/-- Claim C6: calling `Solve()` on a solver whose previous call
exhausted all solutions (stored continuation nil) returns an empty
solution with the Visited/Expanded counters of the last returned
result, and leaves the solver's stored search state unchanged. -/
theorem c6_exhausted_solve (p : Problem σ κ) (fuel : Nat) (ss : GoSolver σ κ γ)
    (r : SResult σ γ κ) (hs : ss.started = true) (hr : ss.result = some r)
    (hn : r.next = none) :
    goSolve p fuel ss = some (⟨[], r.visited, r.expanded⟩, ss) := by
  simp only [goSolve, hs, hr, hn, if_true]

/-- Witness for C6: a concrete exhausted solver. -/
theorem c6_exhausted_solve_witness :
    goSolve (graphProblem testGraph) 7
        { rootState := ⟨"a", F.fin 0⟩, algorithm := .Astar, constraint := (noConstraint, ()),
          limit := F.inf, context := (), started := true,
          result := some ⟨none, F.inf, 5, 4, none, ()⟩ }
      = some (⟨[], 5, 4⟩,
        { rootState := ⟨"a", F.fin 0⟩, algorithm := .Astar, constraint := (noConstraint, ()),
          limit := F.inf, context := (), started := true,
          result := some ⟨none, F.inf, 5, 4, none, ()⟩ }) :=
  c6_exhausted_solve (graphProblem testGraph) 7 _ ⟨none, F.inf, 5, 4, none, ()⟩ rfl rfl rfl

/-- A solver whose root state is itself a goal with cost `-2` (a legal
client `State`): its node value `-2` does not exceed the fresh-search
`ubound` of `-1.0`. -/
def negSolver : GoSolver GState Unit Unit :=
  { rootState := ⟨"A", F.fin (-2)⟩, algorithm := .Astar, constraint := (noConstraint, ()),
    limit := F.inf, context := (), started := false, result := none }

/-- Counterexample to C9: on a fresh search the dequeued goal node with
value `-2` is NOT returned (`-2 > -1.0` is false), because the fresh
`ubound` is `-1.0`, which is not below every real value: the solver
dequeues the goal (visited = 1, `noConstraint` never prunes) yet
returns an empty solution. -/
theorem c9_counterexample :
    ((graphProblem (fun _ => [])).isGoal ⟨"A", F.fin (-2)⟩ () = true) ∧
    F.flt (F.fin (-1)) (F.fin (-2)) = false ∧
    (goSolve (graphProblem (fun _ => [])) 10 negSolver).map
        (fun x => (x.1.solution, x.1.visited)) = some ([], 1) :=
  ⟨rfl, rfl, rfl⟩

/-- One unfolding step of `generalSearch` with positive fuel. -/
theorem generalSearch_succ (p : Problem σ κ) (ci : ConstraintImpl σ γ) (fuel : Nat)
    (queue : Queue σ) (visited expanded : Nat) (cstate : γ) (ubound limit contour : F)
    (ctx : κ) :
    generalSearch p ci (fuel + 1) queue visited expanded cstate ubound limit contour ctx
      = match queueTake queue with
        | (none, _) => some ⟨none, contour, visited, expanded, none, cstate⟩
        | (some n, q) =>
            match ci.onVisit n cstate with
            | (true, cstate) =>
                generalSearch p ci fuel q (visited + 1) expanded cstate ubound limit contour ctx
            | (false, cstate) =>
                if p.isGoal n.state ctx && F.flt ubound n.value then
                  some ⟨some n, contour, visited + 1, expanded,
                    some (.gen ⟨ci, q, visited + 1, expanded, cstate, ubound, limit, contour, ctx⟩),
                    cstate⟩
                else
                  match expandChildren p ci n (p.expand n.state ctx) q expanded contour cstate limit ctx with
                  | (q, expanded, contour, cstate) =>
                      generalSearch p ci fuel q (visited + 1) expanded cstate ubound limit contour ctx := by
  rfl

/-- Claim C9 as amended: on a fresh search (`ubound = -1.0`), every
dequeued goal node that is not pruned by `onVisit` and whose value `v`
satisfies `v > -1.0` (in particular every goal with nonnegative value)
is returned as the found solution, together with the resumption
continuation; goals with value `<= -1.0` or NaN are not returned. -/
theorem c9_fresh_goal_return (p : Problem σ κ) (ci : ConstraintImpl σ γ) (fuel : Nat)
    (queue q : Queue σ) (n : SNode σ) (limit : F) (ctx : κ) (cst : γ)
    (ht : queueTake queue = (some n, q))
    (hv : (ci.onVisit n cst).1 = false)
    (hg : p.isGoal n.state ctx = true)
    (hval : F.flt (F.fin (-1)) n.value = true) :
    startGeneralSearch p ci (fuel + 1) queue limit ctx cst
      = some ⟨some n, F.inf, 1, 0,
          some (.gen ⟨ci, q, 1, 0, (ci.onVisit n cst).2, F.fin (-1), limit, F.inf, ctx⟩),
          (ci.onVisit n cst).2⟩ := by
  have hpair : ci.onVisit n cst = (false, (ci.onVisit n cst).2) := Prod.ext hv rfl
  simp only [startGeneralSearch]
  rw [generalSearch_succ, ht]
  dsimp only
  rw [hpair]
  dsimp only
  rw [hg, hval]
  rfl

/-- Witness for C9's amended theorem: a concrete fresh search whose
frontier head is a goal of value 2. -/
theorem c9_fresh_goal_return_witness :
    startGeneralSearch (graphProblem testGraph) noConstraint 5
        (Queue.stack [SNode.root ⟨"D", F.fin 2⟩ (F.fin 2)]) F.inf () ()
      = some ⟨some (SNode.root ⟨"D", F.fin 2⟩ (F.fin 2)), F.inf, 1, 0,
          some (.gen ⟨noConstraint, Queue.stack [], 1, 0, (), F.fin (-1), F.inf, F.inf, ()⟩),
          ()⟩ :=
  c9_fresh_goal_return (graphProblem testGraph) noConstraint 4
    (Queue.stack [SNode.root ⟨"D", F.fin 2⟩ (F.fin 2)]) (Queue.stack [])
    (SNode.root ⟨"D", F.fin 2⟩ (F.fin 2)) F.inf () () rfl rfl rfl rfl

/-- Unfolding of `solve` on an already-started solver: only the stored
`result` (and its continuation) is consulted. -/
theorem goSolve_started (p : Problem σ κ) (fuel : Nat) (ss : GoSolver σ κ γ)
    (h : ss.started = true) :
    goSolve p fuel ss
      = match ss.result with
        | none => none
        | some r =>
            match r.next with
            | none => some (⟨[], r.visited, r.expanded⟩, ss)
            | some cont =>
                match resumeCont p fuel cont with
                | none => none
                | some nr => some (toResult nr, { ss with result := some nr }) := by
  simp only [goSolve, h]
  rfl

/-- Claim C10: after the search has started, the result of a `Solve()`
call (and the stored search state it leaves behind) is determined
solely by the stored continuation: reassigning Algorithm, Constraint,
Limit or Context between calls does not change it. -/
theorem c10_config_ignored_after_start (p : Problem σ κ) (fuel : Nat) (ss : GoSolver σ κ γ)
    (a : Algorithm) (c : ConstraintImpl σ γ × γ) (l : F) (k : κ)
    (hs : ss.started = true) :
    (goSolve p fuel ((((ss.withAlgorithm a).withConstraint c).withLimit l).withContext k)).map
        (fun x => (x.1, x.2.started, x.2.result))
      = (goSolve p fuel ss).map (fun x => (x.1, x.2.started, x.2.result)) := by
  have hs2 : ((((ss.withAlgorithm a).withConstraint c).withLimit l).withContext k).started
      = true := hs
  rw [goSolve_started _ _ _ hs2, goSolve_started _ _ _ hs]
  simp only [GoSolver.withAlgorithm, GoSolver.withConstraint, GoSolver.withLimit,
    GoSolver.withContext]
  cases hres : ss.result with
  | none => rfl
  | some r =>
      dsimp only
      cases r.next with
      | none => simp [hres]
      | some cont =>
          dsimp only
          cases resumeCont p fuel cont with
          | none => rfl
          | some nr => rfl

/-- Witness for C10: reconfiguring a concrete started solver does not
change the outcome of the next `Solve()`. -/
theorem c10_config_ignored_after_start_witness :
    (goSolve (graphProblem testGraph) 7
        (((((mkSolver .Astar (noConstraint, ()) F.inf).withAlgorithm .DepthFirst).withConstraint
            (noConstraint, ())).withLimit (F.fin 5)).withContext ()
          |> fun s => { s with started := true, result := some ⟨none, F.inf, 5, 4, none, ()⟩ })).map
        (fun x => (x.1, x.2.started, x.2.result.isSome))
      = some (⟨[], 5, 4⟩, true, true) := by
  have h := c10_config_ignored_after_start (graphProblem testGraph) 7
    { mkSolver .Astar (noConstraint, ()) F.inf with
      started := true, result := some ⟨none, F.inf, 5, 4, none, ()⟩ }
    .DepthFirst (noConstraint, ()) (F.fin 5) () rfl
  rfl

/-- Counterexample to C4: two nodes of equal value 5 with state costs 1
and 3, pushed in that order into the current priority queue, are
extracted smaller-cost first — `Take` does not prefer the larger state
cost, because the current `Less` compares values only. -/
theorem c4_counterexample :
    (SNode.root (⟨"x", F.fin 1⟩ : GState) (F.fin 5)).value
        = (SNode.root (⟨"y", F.fin 3⟩ : GState) (F.fin 5)).value ∧
    F.flt (GState.cost ⟨"x", F.fin 1⟩) (GState.cost ⟨"y", F.fin 3⟩) = true ∧
    (queueTake (queueAdd (queueAdd (Queue.pq [])
        (SNode.root (⟨"x", F.fin 1⟩ : GState) (F.fin 5)))
        (SNode.root (⟨"y", F.fin 3⟩ : GState) (F.fin 5)))).1
      = some (SNode.root (⟨"x", F.fin 1⟩ : GState) (F.fin 5)) := by
  decide

/-- Claim C4 as amended: the priority queue orders primarily by
ascending value; the current comparator (strategies.go) compares values
only, so among equal values the extraction order is a heap artifact
(insertion order in the two-element case of the counterexample), while
the descending-state-cost tie-break is present only in the older
revision's comparator (src/unnamed/part_000), under which the
larger-cost node is extracted first. -/
theorem c4_amended :
    (∀ (a b : SNode GState), pqLess a b = F.flt a.value b.value) ∧
    (∀ (cost : GState → F) (a b : SNode GState),
      pqLessOld cost a b
        = (F.flt a.value b.value ||
            (decide (fcompare a.value b.value = 0) && F.flt (cost b.state) (cost a.state)))) ∧
    ((heapPop (pqLessOld GState.cost)
        (heapPush (pqLessOld GState.cost)
          (heapPush (pqLessOld GState.cost) [] (SNode.root (⟨"x", F.fin 1⟩ : GState) (F.fin 5)))
          (SNode.root (⟨"y", F.fin 3⟩ : GState) (F.fin 5)))).1
      = some (SNode.root (⟨"y", F.fin 3⟩ : GState) (F.fin 5))) := by
  refine ⟨fun a b => rfl, ?_, by decide⟩
  intro cost a b
  unfold pqLessOld fcompare
  cases h1 : F.flt a.value b.value <;> cases h2 : F.flt b.value a.value <;>
    cases h3 : F.flt (cost b.state) (cost a.state) <;>
      cases h4 : F.flt (cost a.state) (cost b.state) <;> simp [h1, h2, h3, h4]

/-- The value-monotonicity of a node's root-to-node chain, guarded on
NaN: every consecutive parent/child pair whose values are both non-NaN
satisfies `parent.value <= value`. -/
def monoChainNN : SNode σ → Bool
  | .root _ _ => true
  | .child p _ v => (p.value.isNaN || v.isNaN || F.fle p.value v) && monoChainNN p

/-- `max(x, y) >= x` holds in IEEE comparison whenever neither `x` nor
the maximum is NaN. -/
theorem F.fle_fmax_left (x y : F) (hx : x.isNaN = false) (h : (F.fmax x y).isNaN = false) :
    F.fle x (F.fmax x y) = true := by
  cases x <;> cases y <;>
    simp_all [F.fmax, F.isNaN, F.fle, F.flt, F.feq]
  rename_i a b
  by_cases hab : b < a <;> simp [hab]
  omega

/-- A child node built by the expansion step (value
`max(parent.value, w)`) keeps the guarded chain monotonicity of its
parent. -/
theorem monoChainNN_child (n : SNode σ) (c : σ) (w : F) :
    monoChainNN (SNode.child n c (F.fmax n.value w)) = monoChainNN n := by
  show ((n.value.isNaN || (F.fmax n.value w).isNaN || F.fle n.value (F.fmax n.value w))
      && monoChainNN n) = monoChainNN n
  cases hp : n.value.isNaN with
  | true => simp
  | false =>
      cases hv : (F.fmax n.value w).isNaN with
      | true => simp
      | false => rw [F.fle_fmax_left _ _ hp hv]; simp

/-- The graph `a→b(NaN)` used to refute the unguarded monotonicity. -/
def nanGraph : String → List (String × F)
  | "a" => [("b", F.nan)]
  | _ => []

/-- Counterexample to C8: expanding the root of the graph `a→b(NaN)`
creates (and enqueues) a child node of value NaN, and NaN is not
greater than or equal to the parent's value 0 in float comparison, so
`value` is not non-decreasing along this parent chain as claimed. -/
theorem c8_counterexample :
    expandChildren (graphProblem nanGraph) noConstraint
        (SNode.root ⟨"a", F.fin 0⟩ (F.fin 0))
        ((graphProblem nanGraph).expand ⟨"a", F.fin 0⟩ ())
        (Queue.stack []) 0 F.inf () F.inf ()
      = (Queue.stack [SNode.child (SNode.root ⟨"a", F.fin 0⟩ (F.fin 0)) ⟨"b", F.nan⟩ F.nan],
          1, F.inf, ()) ∧
    F.fle (SNode.root (⟨"a", F.fin 0⟩ : GState) (F.fin 0)).value F.nan = false :=
  ⟨rfl, rfl⟩

/-- Membership of a node in a strategy's backing store. -/
def qmem (x : SNode σ) : Queue σ → Prop
  | .pq l => x ∈ l
  | .stack l => x ∈ l
  | .fifo b => some x ∈ b.buffer

/-- A swap never introduces new elements. -/
theorem mem_of_mem_lswap {l : List α} {i j : Nat} {x : α} (h : x ∈ lswap l i j) : x ∈ l := by
  unfold lswap at h
  cases hi : l.get? i with
  | none => rw [hi] at h; exact h
  | some a =>
      cases hj : l.get? j with
      | none => rw [hi, hj] at h; exact h
      | some b =>
          rw [hi, hj] at h
          rcases List.mem_or_eq_of_mem_set h with h2 | rfl
          · rcases List.mem_or_eq_of_mem_set h2 with h3 | rfl
            · exact h3
            · exact List.get?_mem hj
          · exact List.get?_mem hi

/-- Sifting up never introduces new elements. -/
theorem mem_of_mem_heapUpF (less : α → α → Bool) :
    ∀ (fuel : Nat) (l : List α) (j : Nat) {x : α}, x ∈ heapUpF less fuel l j → x ∈ l := by
  intro fuel
  induction fuel with
  | zero => intro l j x h; exact h
  | succ f ih =>
      intro l j x h
      unfold heapUpF at h
      dsimp only at h
      split at h
      · exact h
      · split at h
        · split at h
          · exact mem_of_mem_lswap (ih _ _ h)
          · exact h
        · exact h

/-- Sifting down never introduces new elements. -/
theorem mem_of_mem_heapDownF (less : α → α → Bool) :
    ∀ (fuel : Nat) (l : List α) (i n : Nat) {x : α}, x ∈ heapDownF less fuel l i n → x ∈ l := by
  intro fuel
  induction fuel with
  | zero => intro l i n x h; exact h
  | succ f ih =>
      intro l i n x h
      unfold heapDownF at h
      dsimp only at h
      split at h
      · exact h
      · split at h
        · split at h
          · exact mem_of_mem_lswap (ih _ _ _ h)
          · exact h
        · exact h

/-- `heap.Push` adds exactly the pushed element. -/
theorem mem_heapPush (less : α → α → Bool) {l : List α} {x y : α}
    (h : y ∈ heapPush less l x) : y ∈ l ∨ y = x := by
  unfold heapPush at h
  have h2 := mem_of_mem_heapUpF less _ _ _ h
  rcases List.mem_append.mp h2 with h3 | h3
  · exact Or.inl h3
  · exact Or.inr (List.mem_singleton.mp h3)

/-- The element returned by `heap.Pop` is from the heap. -/
theorem heapPop_fst_mem (less : α → α → Bool) {l : List α} {x : α}
    (h : (heapPop less l).1 = some x) : x ∈ l := by
  unfold heapPop at h
  exact mem_of_mem_lswap (mem_of_mem_heapDownF less _ _ _ _
    (List.mem_of_getLast?_eq_some h))

/-- The heap left by `heap.Pop` holds no new elements. -/
theorem heapPop_snd_subset (less : α → α → Bool) {l : List α} {y : α}
    (h : y ∈ (heapPop less l).2) : y ∈ l := by
  unfold heapPop at h
  exact mem_of_mem_lswap (mem_of_mem_heapDownF less _ _ _ _
    ((List.dropLast_sublist _).subset h))

/-- A node returned by `ringbuffer.Take` is in the buffer. -/
theorem rbTake_fst_mem {b : RB σ} {x : SNode σ} (h : (rbTake b).1 = some x) :
    some x ∈ b.buffer := by
  unfold rbTake at h
  split at h
  · simp at h
  · have h2 : b.buffer.getD b.start none = some x := h
    rw [List.getD_eq_getElem?_getD] at h2
    rcases hg : b.buffer[b.start]? with _ | v
    · rw [hg] at h2; simp at h2
    · rw [hg] at h2
      simp at h2
      subst h2
      exact List.getElem?_mem hg

/-- `ringbuffer.Take` does not change the buffer contents. -/
theorem rbTake_snd_buffer (b : RB σ) : (rbTake b).2.buffer = b.buffer := by
  unfold rbTake
  split <;> rfl

/-- `copy` only produces elements of its two arguments. -/
theorem mem_of_mem_listCopyInto {x : α} :
    ∀ (dst : List α) (off : Nat) (src : List α),
      x ∈ listCopyInto dst off src → x ∈ dst ∨ x ∈ src := by
  intro dst
  induction dst with
  | nil =>
      intro off src h
      cases src with
      | nil => exact Or.inl h
      | cons s ss =>
          cases off with
          | zero => replace h : x ∈ ([] : List α) := h; cases h
          | succ o => replace h : x ∈ ([] : List α) := h; cases h
  | cons d ds ih =>
      intro off src h
      cases src with
      | nil =>
          cases off with
          | zero => exact Or.inl h
          | succ o => exact Or.inl h
      | cons s ss =>
          cases off with
          | zero =>
              replace h : x ∈ s :: listCopyInto ds 0 ss := h
              rcases List.mem_cons.mp h with rfl | h2
              · exact Or.inr (List.mem_cons_self _ _)
              · rcases ih 0 ss h2 with h3 | h3
                · exact Or.inl (List.mem_cons_of_mem _ h3)
                · exact Or.inr (List.mem_cons_of_mem _ h3)
          | succ o =>
              replace h : x ∈ d :: listCopyInto ds o (s :: ss) := h
              rcases List.mem_cons.mp h with rfl | h2
              · exact Or.inl (List.mem_cons_self _ _)
              · rcases ih o (s :: ss) h2 with h3 | h3
                · exact Or.inl (List.mem_cons_of_mem _ h3)
                · exact Or.inr h3

/-- Growing the ring buffer only copies existing elements. -/
theorem mem_buffer_rbGrow {b : RB σ} {x : SNode σ} (h : some x ∈ (rbGrow b).buffer) :
    some x ∈ b.buffer := by
  unfold rbGrow at h
  dsimp only at h
  split at h
  · rcases mem_of_mem_listCopyInto _ _ _ h with h2 | h2
    · exact absurd (List.eq_of_mem_replicate h2) (by simp)
    · exact List.mem_of_mem_drop (List.mem_of_mem_take h2)
  · rcases mem_of_mem_listCopyInto _ _ _ h with h2 | h2
    · rcases mem_of_mem_listCopyInto _ _ _ h2 with h3 | h3
      · exact absurd (List.eq_of_mem_replicate h3) (by simp)
      · exact List.mem_of_mem_drop h3
    · exact List.mem_of_mem_take h2

/-- `ringbuffer.Add` adds exactly the given node. -/
theorem mem_buffer_rbAdd {b : RB σ} {n : SNode σ} {x : SNode σ}
    (h : some x ∈ (rbAdd b n).buffer) : x = n ∨ some x ∈ b.buffer := by
  unfold rbAdd at h
  dsimp only at h
  split at h
  · rcases List.mem_or_eq_of_mem_set (mem_buffer_rbGrow h) with h2 | h2
    · exact Or.inr h2
    · exact Or.inl (by injection h2)
  · rcases List.mem_or_eq_of_mem_set h with h2 | h2
    · exact Or.inr h2
    · exact Or.inl (by injection h2)

/-- `Take` returns a member of the frontier. -/
theorem queueTake_fst_mem {q q' : Queue σ} {n : SNode σ}
    (h : queueTake q = (some n, q')) : qmem n q := by
  cases q with
  | pq l =>
      simp only [queueTake] at h
      split at h
      · simp at h
      · rcases hpop : heapPop pqLess l with ⟨x0, l2⟩
        rw [hpop] at h
        injection h with h1 _
        exact heapPop_fst_mem pqLess (by rw [hpop, h1])
  | stack l =>
      simp only [queueTake] at h
      injection h with h1 _
      exact List.mem_of_getLast?_eq_some h1
  | fifo b =>
      simp only [queueTake] at h
      rcases htake : rbTake b with ⟨x0, b2⟩
      rw [htake] at h
      injection h with h1 _
      exact rbTake_fst_mem (by rw [htake, h1])

/-- `Take` leaves a sub-collection of the frontier. -/
theorem queueTake_snd_subset {q q' : Queue σ} {n : SNode σ}
    (h : queueTake q = (some n, q')) : ∀ x, qmem x q' → qmem x q := by
  cases q with
  | pq l =>
      simp only [queueTake] at h
      split at h
      · simp at h
      · rcases hpop : heapPop pqLess l with ⟨x0, l2⟩
        rw [hpop] at h
        injection h with _ h2
        intro x hx
        rw [← h2] at hx
        exact heapPop_snd_subset pqLess (by rw [hpop]; exact hx)
  | stack l =>
      simp only [queueTake] at h
      injection h with _ h2
      intro x hx
      rw [← h2] at hx
      exact (List.dropLast_sublist _).subset hx
  | fifo b =>
      simp only [queueTake] at h
      rcases htake : rbTake b with ⟨x0, b2⟩
      rw [htake] at h
      injection h with _ h2
      intro x hx
      rw [← h2] at hx
      show some x ∈ b.buffer
      rw [← rbTake_snd_buffer b, htake]
      exact hx

/-- `Add` inserts exactly the given node. -/
theorem qmem_queueAdd {q : Queue σ} {n x : SNode σ} (h : qmem x (queueAdd q n)) :
    x = n ∨ qmem x q := by
  cases q with
  | pq l =>
      rcases mem_heapPush pqLess h with h2 | h2
      · exact Or.inr h2
      · exact Or.inl h2
  | stack l =>
      rcases List.mem_append.mp h with h2 | h2
      · exact Or.inr h2
      · exact Or.inl (List.mem_singleton.mp h2)
  | fifo b => exact mem_buffer_rbAdd h

/-- The expansion step either leaves the queue unchanged or enqueues the
child node built from the current parent. -/
theorem expandOne_queue_cases (p : Problem σ κ) (ci : ConstraintImpl σ γ) (n : SNode σ)
    (limit : F) (ctx : κ) (acc : Queue σ × Nat × F × γ) (c : σ) :
    (expandOne p ci n limit ctx acc c).1 = acc.1 ∨
    (expandOne p ci n limit ctx acc c).1
      = queueAdd acc.1
          (SNode.child n c (F.fmax n.value (F.fadd (p.cost c ctx) (p.heuristic c ctx)))) := by
  obtain ⟨queue, expanded, contour, cstate⟩ := acc
  unfold expandOne
  dsimp only
  rcases hoe : ci.onExpand
      (SNode.child n c (F.fmax n.value (F.fadd (p.cost c ctx) (p.heuristic c ctx)))) cstate
    with ⟨bf, cst2⟩
  cases bf
  · dsimp only
    split
    · exact Or.inl rfl
    · exact Or.inr rfl
  · exact Or.inl rfl

/-- Every node in the queue after folding the expansion step over a
list of children is either an old queue member or a child node of the
expanded parent. -/
theorem qmem_foldl_expandOne (p : Problem σ κ) (ci : ConstraintImpl σ γ) (n : SNode σ)
    (limit : F) (ctx : κ) :
    ∀ (cs : List σ) (acc : Queue σ × Nat × F × γ) (x : SNode σ),
      qmem x (cs.foldl (expandOne p ci n limit ctx) acc).1 →
      qmem x acc.1 ∨
        ∃ c, x = SNode.child n c (F.fmax n.value (F.fadd (p.cost c ctx) (p.heuristic c ctx))) := by
  intro cs
  induction cs with
  | nil => intro acc x h; exact Or.inl h
  | cons c cs ih =>
      intro acc x h
      rw [List.foldl_cons] at h
      rcases ih (expandOne p ci n limit ctx acc c) x h with h2 | h2
      · rcases expandOne_queue_cases p ci n limit ctx acc c with he | he
        · rw [he] at h2
          exact Or.inl h2
        · rw [he] at h2
          rcases qmem_queueAdd h2 with rfl | h3
          · exact Or.inr ⟨c, rfl⟩
          · exact Or.inl h3
      · exact Or.inr h2

/-- The guarded-monotonicity invariant of the general search loop: if
every frontier node has a guarded-monotone chain, so do the returned
solution node and every node in the continuation's frontier. -/
theorem generalSearch_monoChain (p : Problem σ κ) (ci : ConstraintImpl σ γ) :
    ∀ (fuel : Nat) (queue : Queue σ) (visited expanded : Nat) (cstate : γ)
      (ubound limit contour : F) (ctx : κ) (r : SResult σ γ κ),
      (∀ x, qmem x queue → monoChainNN x = true) →
      generalSearch p ci fuel queue visited expanded cstate ubound limit contour ctx = some r →
      (∀ n, r.node = some n → monoChainNN n = true) ∧
      (∀ g, r.next = some (.gen g) → ∀ x, qmem x g.queue → monoChainNN x = true) := by
  intro fuel
  induction fuel with
  | zero =>
      intro queue visited expanded cstate ubound limit contour ctx r _ h
      exact Option.noConfusion h
  | succ f ih =>
      intro queue visited expanded cstate ubound limit contour ctx r hq h
      rw [generalSearch_succ] at h
      rcases htake : queueTake queue with ⟨x0, q⟩
      rw [htake] at h
      dsimp only at h
      cases x0 with
      | none =>
          dsimp only at h
          cases h
          exact ⟨fun n hn => Option.noConfusion hn, fun g hg => Option.noConfusion hg⟩
      | some nd =>
          dsimp only at h
          have hnd : monoChainNN nd = true := hq nd (queueTake_fst_mem htake)
          have hsub : ∀ y, qmem y q → qmem y queue := queueTake_snd_subset htake
          rcases hov : ci.onVisit nd cstate with ⟨bv, cst2⟩
          rw [hov] at h
          cases bv
          · dsimp only at h
            split at h
            · cases h
              refine ⟨?_, ?_⟩
              · intro n hn
                injection hn with hn
                rw [← hn]
                exact hnd
              · intro g hg
                injection hg with hg
                cases hg
                intro x hx
                exact hq x (hsub x hx)
            · rcases hexp : expandChildren p ci nd (p.expand nd.state ctx) q expanded contour
                  cst2 limit ctx with ⟨q2, e2, c2, s2⟩
              rw [hexp] at h
              refine ih q2 (visited + 1) e2 s2 ubound limit c2 ctx r ?_ h
              intro x hx
              have hx2 : qmem x (((p.expand nd.state ctx).foldl (expandOne p ci nd limit ctx)
                  (q, expanded, contour, cst2)).1) := by
                rw [show (p.expand nd.state ctx).foldl (expandOne p ci nd limit ctx)
                    (q, expanded, contour, cst2)
                    = expandChildren p ci nd (p.expand nd.state ctx) q expanded contour
                        cst2 limit ctx from rfl, hexp]
                exact hx
              rcases qmem_foldl_expandOne p ci nd limit ctx (p.expand nd.state ctx)
                  (q, expanded, contour, cst2) x hx2 with h3 | ⟨c, rfl⟩
              · exact hq x (hsub x h3)
              · rw [monoChainNN_child]
                exact hnd
          · dsimp only at h
            exact ih q (visited + 1) expanded cst2 ubound limit contour ctx r
              (fun x hx => hq x (hsub x hx)) h

/-- Claim C8 as amended: the root node seeded by the solver has no
parent and value `Cost() + Heuristic()`; each child created by the
expansion step has value `max(parent.value, cost + heuristic)`, which
is greater than or equal to the parent's value whenever neither value
is NaN (the guarded chain predicate `monoChainNN`); and every node a
search started from a guarded-monotone frontier can return — the
solution node and all nodes stored in the continuation's frontier —
satisfies the guarded chain predicate.  With NaN values the plain
"child value >= parent value" fails (see the counterexample). -/
theorem c8_value_monotone (p : Problem σ κ) (ci : ConstraintImpl σ γ) (s : σ) (ctx : κ)
    (fuel : Nat) (queue : Queue σ) (visited expanded : Nat) (cstate : γ)
    (ubound limit contour : F) (r : SResult σ γ κ) (n0 : SNode σ) (c : σ) (w : F)
    (hq : ∀ x, qmem x queue → monoChainNN x = true)
    (h : generalSearch p ci fuel queue visited expanded cstate ubound limit contour ctx
        = some r) :
    ((seedRoot p s ctx).parentO = none ∧
      (seedRoot p s ctx).value = F.fadd (p.cost s ctx) (p.heuristic s ctx)) ∧
    monoChainNN (SNode.child n0 c (F.fmax n0.value w)) = monoChainNN n0 ∧
    (∀ n, r.node = some n → monoChainNN n = true) ∧
    (∀ g, r.next = some (.gen g) → ∀ x, qmem x g.queue → monoChainNN x = true) := by
  refine ⟨⟨rfl, rfl⟩, monoChainNN_child n0 c w, ?_⟩
  exact generalSearch_monoChain p ci fuel queue visited expanded cstate ubound limit contour
    ctx r hq h

/-- Witness for C8's amended theorem: the test-graph search seeded with
the root node, run to completion, together with a concrete child
construction. -/
theorem c8_value_monotone_witness :
    (((seedRoot (graphProblem testGraph) ⟨"a", F.fin 0⟩ ()).parentO = none ∧
      (seedRoot (graphProblem testGraph) ⟨"a", F.fin 0⟩ ()).value
        = F.fadd (F.fin 0) (F.fin 0)) ∧
    monoChainNN (SNode.child (SNode.root (⟨"a", F.fin 0⟩ : GState) (F.fin 0)) ⟨"b", F.fin 1⟩
        (F.fmax (F.fin 0) (F.fin 1)))
      = monoChainNN (SNode.root (⟨"a", F.fin 0⟩ : GState) (F.fin 0)) ∧
    (∀ n, (⟨none, F.inf, 0, 0, none, ()⟩ : SResult GState Unit Unit).node = some n →
      monoChainNN n = true) ∧
    (∀ g, (⟨none, F.inf, 0, 0, none, ()⟩ : SResult GState Unit Unit).next = some (.gen g) →
      ∀ x, qmem x g.queue → monoChainNN x = true)) :=
  c8_value_monotone (graphProblem testGraph) noConstraint ⟨"a", F.fin 0⟩ () 1
    (Queue.stack []) 0 0 () (F.fin (-1)) F.inf F.inf ⟨none, F.inf, 0, 0, none, ()⟩
    (SNode.root ⟨"a", F.fin 0⟩ (F.fin 0)) ⟨"b", F.fin 1⟩ (F.fin 1)
    (fun x hx => absurd hx (List.not_mem_nil x)) rfl

/-! ## Ring buffer FIFO refinement (claim C7) -/

/-- One call in an interleaving of `Add`/`Take` on a frontier. -/
inductive RBOp (σ : Type) where
  | add (n : SNode σ)
  | take
deriving DecidableEq, Repr

/-- Run a sequence of calls against the ring buffer, collecting the
result of every `Take`. -/
def rbRun : RB σ → List (RBOp σ) → List (Option (SNode σ))
  | _, [] => []
  | b, .add n :: ops => rbRun (rbAdd b n) ops
  | b, .take :: ops => (rbTake b).1 :: rbRun (rbTake b).2 ops

/-- Run the same calls against the abstract FIFO queue (a plain list;
`Take` on empty returns the nil sentinel and leaves the queue empty,
as the Go `Take` does). -/
def fifoRun : List (SNode σ) → List (RBOp σ) → List (Option (SNode σ))
  | _, [] => []
  | l, .add n :: ops => fifoRun (l ++ [n]) ops
  | l, .take :: ops =>
      match l with
      | [] => none :: fifoRun [] ops
      | x :: rest => some x :: fifoRun rest ops

/-- The nodes added by a call sequence, in order. -/
def addsOf : List (RBOp σ) → List (SNode σ)
  | [] => []
  | .add n :: ops => n :: addsOf ops
  | .take :: ops => addsOf ops

/-- The number of `Take` calls in a sequence. -/
def takesOf : List (RBOp σ) → Nat
  | [] => 0
  | .add _ :: ops => takesOf ops
  | .take :: ops => takesOf ops + 1

/-- `copy` preserves the length of the destination. -/
theorem length_listCopyInto :
    ∀ (dst : List α) (off : Nat) (src : List α),
      (listCopyInto dst off src).length = dst.length := by
  intro dst
  induction dst with
  | nil =>
      intro off src
      cases src with
      | nil => cases off <;> rfl
      | cons s ss => cases off <;> rfl
  | cons d ds ih =>
      intro off src
      cases src with
      | nil => cases off <;> rfl
      | cons s ss =>
          cases off with
          | zero =>
              show (s :: listCopyInto ds 0 ss).length = (d :: ds).length
              simp [ih]
          | succ o =>
              show (d :: listCopyInto ds o (s :: ss)).length = (d :: ds).length
              simp [ih]

/-- Reading from the result of `copy`: positions inside the copied
window come from the source, the others from the destination. -/
theorem getD_listCopyInto (d : α) :
    ∀ (dst : List α) (off : Nat) (src : List α) (i : Nat),
      (listCopyInto dst off src).getD i d
        = if off ≤ i ∧ i < off + src.length ∧ i < dst.length then src.getD (i - off) d
          else dst.getD i d := by
  intro dst
  induction dst with
  | nil =>
      intro off src i
      cases src with
      | nil =>
          cases off with
          | zero => show ([] : List α).getD i d = _ ; simp
          | succ o => show ([] : List α).getD i d = _ ; simp
      | cons s ss =>
          cases off with
          | zero => show ([] : List α).getD i d = _ ; simp
          | succ o => show ([] : List α).getD i d = _ ; simp
  | cons dd ds ih =>
      intro off src i
      cases src with
      | nil =>
          cases off with
          | zero =>
              show (dd :: ds).getD i d = _
              rw [if_neg (by simp)]
          | succ o =>
              show (dd :: ds).getD i d = _
              rw [if_neg (by simp; omega)]
      | cons s ss =>
          cases off with
          | zero =>
              show (s :: listCopyInto ds 0 ss).getD i d = _
              cases i with
              | zero => simp
              | succ j =>
                  show (listCopyInto ds 0 ss).getD j d = _
                  rw [ih 0 ss j]
                  by_cases hc : 0 ≤ j ∧ j < 0 + ss.length ∧ j < ds.length
                  · rw [if_pos hc, if_pos (by simp only [List.length_cons] at hc ⊢; omega)]
                    rfl
                  · rw [if_neg hc, if_neg (by simp only [List.length_cons] at hc ⊢; omega)]
                    rfl
          | succ o =>
              show (dd :: listCopyInto ds o (s :: ss)).getD i d = _
              cases i with
              | zero => rw [if_neg (by omega)] ; rfl
              | succ j =>
                  show (listCopyInto ds o (s :: ss)).getD j d = _
                  rw [ih o (s :: ss) j]
                  by_cases hc : o ≤ j ∧ j < o + (s :: ss).length ∧ j < ds.length
                  · rw [if_pos hc, if_pos (by simp only [List.length_cons] at hc ⊢; omega)]
                    congr 1
                    omega
                  · rw [if_neg hc, if_neg (by simp only [List.length_cons] at hc ⊢; omega)]
                    rfl

/-- Representation invariant of the ring buffer: the capacity is a
power of two, the live region starting at `start` holds exactly the
abstract queue `l` (so fewer elements than the capacity, one slot kept
free to tell empty from full). -/
structure RBinv (b : RB σ) (l : List (SNode σ)) : Prop where
  pow : ∃ k, b.buffer.length = 2 ^ k
  startLt : b.start < b.buffer.length
  bound : l.length < b.buffer.length
  stopDef : b.stop = (b.start + l.length) % b.buffer.length
  content : ∀ i, i < l.length →
    b.buffer.getD ((b.start + i) % b.buffer.length) none = l[i]?

/-- With a power-of-two capacity the masked increment is the modular
increment. -/
theorem rbInc_eq_mod {b : RB σ} {k : Nat} (hk : b.buffer.length = 2 ^ k) (i : Nat) :
    rbInc b i = (i + 1) % b.buffer.length := by
  unfold rbInc
  rw [hk]
  exact Nat.and_pow_two_sub_one_eq_mod (i + 1) k

/-- `Take` on an empty buffer returns the nil sentinel and leaves the
buffer unchanged. -/
theorem rbTake_nil {b : RB σ} (inv : RBinv b ([] : List (SNode σ))) : rbTake b = (none, b) := by
  have heq : b.start = b.stop := by
    rw [inv.stopDef]
    simp [Nat.mod_eq_of_lt inv.startLt]
  unfold rbTake
  rw [if_pos heq]

/-- `Take` on a non-empty buffer returns the oldest element and the
invariant is preserved for the tail. -/
theorem rbTake_cons {b : RB σ} {x : SNode σ} {xs : List (SNode σ)}
    (inv : RBinv b (x :: xs)) :
    (rbTake b).1 = some x ∧ RBinv (rbTake b).2 xs := by
  obtain ⟨k, hk⟩ := inv.pow
  have hlen0 : 0 < b.buffer.length := by rw [hk]; positivity
  have hL : xs.length + 1 < b.buffer.length := by
    have := inv.bound
    simpa using this
  have hstartlt := inv.startLt
  have hne : ¬(b.start = b.stop) := by
    rw [inv.stopDef]
    intro hcon
    simp only [List.length_cons] at hcon
    rcases Nat.lt_or_ge (b.start + (xs.length + 1)) b.buffer.length with hlt | hge
    · rw [Nat.mod_eq_of_lt hlt] at hcon
      omega
    · rw [Nat.mod_eq_sub_mod hge] at hcon
      rw [Nat.mod_eq_of_lt (by omega)] at hcon
      omega
  have hfst : (rbTake b).1 = some x := by
    unfold rbTake
    rw [if_neg hne]
    have h0 := inv.content 0 (by simp)
    rw [Nat.add_zero, Nat.mod_eq_of_lt inv.startLt] at h0
    simpa using h0
  refine ⟨hfst, ?_⟩
  have hsnd : (rbTake b).2 = { b with start := rbInc b b.start } := by
    unfold rbTake
    rw [if_neg hne]
  rw [hsnd]
  have hstart2 : rbInc b b.start = (b.start + 1) % b.buffer.length := rbInc_eq_mod hk _
  refine ⟨⟨k, hk⟩, ?_, ?_, ?_, ?_⟩
  · simp only [hstart2]
    exact Nat.mod_lt _ hlen0
  · simp only
    omega
  · simp only [hstart2, inv.stopDef]
    rw [Nat.mod_add_mod]
    simp only [List.length_cons]
    congr 1
    omega
  · intro i hi
    simp only [hstart2]
    rw [Nat.mod_add_mod]
    have := inv.content (i + 1) (by simpa using Nat.succ_lt_succ hi)
    rw [show b.start + 1 + i = b.start + (i + 1) by omega]
    simpa using this

/-- `Add` preserves the invariant with the node appended to the
abstract queue, growing (and re-laying-out) the buffer when it fills
up. -/
theorem rbAdd_spec {b : RB σ} {l : List (SNode σ)} (inv : RBinv b l) (n : SNode σ) :
    RBinv (rbAdd b n) (l ++ [n]) := by
  obtain ⟨k, hk⟩ := inv.pow
  have hlen0 : 0 < b.buffer.length := by rw [hk]; positivity
  have hstartlt := inv.startLt
  have hbound := inv.bound
  have hstop := inv.stopDef
  have hstoplt : b.stop < b.buffer.length := by
    rw [hstop]
    exact Nat.mod_lt _ hlen0
  have hlen1 : (b.buffer.set b.stop (some n)).length = b.buffer.length := by simp
  have content1 : ∀ i, i < l.length + 1 →
      (b.buffer.set b.stop (some n)).getD ((b.start + i) % b.buffer.length) none
        = (l ++ [n])[i]? := by
    intro i hi
    rcases Nat.lt_or_ge i l.length with hil | hil
    · have hne : b.stop ≠ (b.start + i) % b.buffer.length := by
        rw [hstop]
        intro hcon
        have h2 : l.length % b.buffer.length = i % b.buffer.length :=
          Nat.ModEq.add_left_cancel' b.start hcon
        rw [Nat.mod_eq_of_lt hbound, Nat.mod_eq_of_lt (by omega)] at h2
        omega
      rw [List.getD_eq_getElem?_getD, List.getElem?_set_ne hne,
        ← List.getD_eq_getElem?_getD, inv.content i hil, List.getElem?_append_left hil]
    · have hieq : i = l.length := by omega
      have hpos : (b.start + i) % b.buffer.length = b.stop := by rw [hieq, hstop]
      rw [List.getD_eq_getElem?_getD, hpos, List.getElem?_set_self (by omega),
        Option.getD_some, hieq, List.getElem?_concat_length]
  have hstop2 :
      rbInc { b with buffer := b.buffer.set b.stop (some n) } b.stop
        = (b.start + (l.length + 1)) % b.buffer.length := by
    unfold rbInc
    simp only [hlen1, hk]
    rw [Nat.and_pow_two_sub_one_eq_mod (b.stop + 1) k, ← hk, hstop, Nat.mod_add_mod]
    congr 1
  unfold rbAdd
  dsimp only
  rw [hstop2]
  split
  next hfull =>
    have hLfull : l.length + 1 = b.buffer.length := by
      rcases Nat.lt_or_ge (b.start + (l.length + 1)) b.buffer.length with hlt | hge
      · rw [Nat.mod_eq_of_lt hlt] at hfull
        omega
      · rw [Nat.mod_eq_sub_mod hge] at hfull
        rw [Nat.mod_eq_of_lt (by omega)] at hfull
        omega
    rw [← hfull]
    unfold rbGrow
    dsimp only
    rw [if_neg (Nat.lt_irrefl _)]
    have hdlen : ((b.buffer.set b.stop (some n)).drop b.start).length
        = b.buffer.length - b.start := by
      simp
    have htlen : ((b.buffer.set b.stop (some n)).take b.start).length = b.start := by
      simp
      omega
    have hlena1 : (listCopyInto
        (List.replicate ((b.buffer.set b.stop (some n)).length * 2) none) 0
        ((b.buffer.set b.stop (some n)).drop b.start)).length
          = b.buffer.length * 2 := by
      rw [length_listCopyInto]
      simp
    have hlenadj : (listCopyInto (listCopyInto
        (List.replicate ((b.buffer.set b.stop (some n)).length * 2) none) 0
        ((b.buffer.set b.stop (some n)).drop b.start))
        ((b.buffer.set b.stop (some n)).drop b.start).length
        ((b.buffer.set b.stop (some n)).take b.start)).length
          = b.buffer.length * 2 := by
      rw [length_listCopyInto, hlena1]
    refine ⟨⟨k + 1, ?_⟩, ?_, ?_, ?_, ?_⟩
    · dsimp only
      rw [hlenadj, hk, Nat.pow_succ]
    · dsimp only
      rw [hlenadj]
      omega
    · dsimp only
      rw [hlenadj]
      simp only [List.length_append, List.length_singleton]
      omega
    · dsimp only
      rw [hlenadj]
      simp only [List.length_append, List.length_singleton, hlen1]
      rw [Nat.zero_add, Nat.mod_eq_of_lt (by omega)]
      omega
    · intro i hi
      dsimp only
      simp only [List.length_append, List.length_singleton] at hi
      have hiL : i < b.buffer.length := by omega
      rw [hlenadj, Nat.zero_add, Nat.mod_eq_of_lt (by omega)]
      rw [getD_listCopyInto]
      rcases Nat.lt_or_ge i (b.buffer.length - b.start) with hcase | hcase
      · rw [if_neg (by rw [hdlen]; omega)]
        rw [getD_listCopyInto]
        rw [if_pos ⟨Nat.zero_le i, by rw [Nat.zero_add, hdlen]; omega,
          by simp; omega⟩]
        rw [Nat.sub_zero, List.getD_eq_getElem?_getD, List.getElem?_drop]
        have hmod : (b.start + i) % b.buffer.length = b.start + i :=
          Nat.mod_eq_of_lt (by omega)
        rw [← List.getD_eq_getElem?_getD, ← hmod]
        exact content1 i hi
      · rw [if_pos ⟨by rw [hdlen]; omega, by rw [hdlen, htlen]; omega,
          by rw [hlena1]; omega⟩]
        rw [hdlen, List.getD_eq_getElem?_getD, List.getElem?_take_of_lt (by omega)]
        have hmod : (b.start + i) % b.buffer.length = i - (b.buffer.length - b.start) := by
          rw [Nat.mod_eq_sub_mod (by omega)]
          rw [Nat.mod_eq_of_lt (by omega)]
          omega
        rw [← List.getD_eq_getElem?_getD, ← hmod]
        exact content1 i hi
  next hnotfull =>
    have hLlt : l.length + 1 < b.buffer.length := by
      rcases Nat.lt_or_ge (l.length + 1) b.buffer.length with h | h
      · exact h
      · exfalso
        apply hnotfull
        have hLeq : l.length + 1 = b.buffer.length := by omega
        rw [hLeq, Nat.add_mod_right, Nat.mod_eq_of_lt hstartlt]
    refine ⟨⟨k, by simpa using hk⟩, by simpa using hstartlt, ?_, ?_, ?_⟩
    · dsimp only
      simp only [hlen1, List.length_append, List.length_singleton]
      omega
    · dsimp only
      simp only [hlen1, List.length_append, List.length_singleton]
    · intro i hi
      dsimp only
      simp only [List.length_append, List.length_singleton] at hi
      rw [hlen1]
      exact content1 i hi

/-- The fresh 64-slot ring buffer represents the empty queue. -/
theorem rbInit_inv : RBinv (rbInit : RB σ) [] := by
  refine ⟨⟨6, by simp [rbInit]⟩, by simp [rbInit], by simp [rbInit], by simp [rbInit], ?_⟩
  intro i hi
  cases hi

/-- Simulation: the ring buffer and the abstract FIFO queue produce the
same `Take` outputs on every call sequence. -/
theorem rbRun_eq_fifoRun :
    ∀ (ops : List (RBOp σ)) (b : RB σ) (l : List (SNode σ)), RBinv b l →
      rbRun b ops = fifoRun l ops := by
  intro ops
  induction ops with
  | nil => intro b l _; rfl
  | cons op rest ih =>
      intro b l inv
      cases op with
      | add n =>
          show rbRun (rbAdd b n) rest = fifoRun (l ++ [n]) rest
          exact ih _ _ (rbAdd_spec inv n)
      | take =>
          cases l with
          | nil =>
              show (rbTake b).1 :: rbRun (rbTake b).2 rest = none :: fifoRun [] rest
              rw [rbTake_nil inv]
              exact congrArg _ (ih _ _ inv)
          | cons x xs =>
              obtain ⟨h1, h2⟩ := rbTake_cons inv
              show (rbTake b).1 :: rbRun (rbTake b).2 rest = some x :: fifoRun xs rest
              rw [h1]
              exact congrArg _ (ih _ _ h2)

/-- The abstract FIFO queue returns the enqueued elements in order when
no `Take` ever outruns the `Add`s. -/
theorem fifoRun_fifo_order :
    ∀ (ops : List (RBOp σ)) (q : List (SNode σ)),
      (∀ k, k ≤ ops.length → takesOf (ops.take k) ≤ q.length + (addsOf (ops.take k)).length) →
      fifoRun q ops = ((q ++ addsOf ops).take (takesOf ops)).map some := by
  intro ops
  induction ops with
  | nil => intro q _; rfl
  | cons op rest ih =>
      intro q h
      cases op with
      | add n =>
          show fifoRun (q ++ [n]) rest = _
          rw [ih (q ++ [n]) ?_]
          · show _ = ((q ++ (n :: addsOf rest)).take (takesOf rest)).map some
            rw [List.append_assoc, List.singleton_append]
          · intro m hm
            have := h (m + 1) (by simpa using Nat.succ_le_succ hm)
            simp only [List.take_succ_cons, takesOf, addsOf, List.length_cons,
              List.length_append, List.length_singleton] at this ⊢
            omega
      | take =>
          have hq : q ≠ [] := by
            intro hq0
            have := h 1 (by simp)
            simp [takesOf, addsOf, hq0] at this
          cases q with
          | nil => exact absurd rfl hq
          | cons x xs =>
              show some x :: fifoRun xs rest = _
              rw [ih xs ?_]
              · show _ = (((x :: xs) ++ addsOf rest).take (takesOf rest + 1)).map some
                rw [List.cons_append, List.take_succ_cons, List.map_cons]
              · intro m hm
                have := h (m + 1) (by simpa using Nat.succ_le_succ hm)
                simp only [List.take_succ_cons, takesOf, addsOf, List.length_cons] at this ⊢
                omega

/-- Claim C7: the ring-buffer frontier is observationally a FIFO queue.
For every finite interleaving of `Add`/`Take` calls in which the number
of `Add`s is at least the number of `Take`s at every prefix, the
sequence of nodes returned by `Take` equals the sequence in which they
were added — across capacity-doubling growth events, whose live-region
copy (two copies in the wrapped case) is part of the verified `rbAdd`
simulation. -/
theorem c7_ringbuffer_fifo (ops : List (RBOp σ))
    (h : ∀ k, k ≤ ops.length → takesOf (ops.take k) ≤ (addsOf (ops.take k)).length) :
    rbRun rbInit ops = ((addsOf ops).take (takesOf ops)).map some := by
  rw [rbRun_eq_fifoRun ops rbInit [] rbInit_inv]
  have := fifoRun_fifo_order ops [] (fun k hk => by simpa using h k hk)
  simpa using this

/-- A concrete call sequence: 70 adds (crossing the 64-slot capacity
doubling) followed by 70 takes. -/
def growOps : List (RBOp GState) :=
  (List.range 70).map (fun i => RBOp.add (SNode.root ⟨"x", F.fin i⟩ (F.fin i)))
    ++ List.replicate 70 RBOp.take

/-- Witness for C7: the 140-call sequence crossing a growth event
returns all 70 nodes in insertion order. -/
theorem c7_ringbuffer_fifo_witness :
    rbRun (rbInit : RB GState) growOps
      = ((addsOf growOps).take (takesOf growOps)).map some :=
  c7_ringbuffer_fifo growOps (by decide)
